import Mathlib

/-!
Shallow embedding of `src/scripts/preprocessing.py` (fintech-cx-analytics).

A pandas `DataFrame` is modelled as a `Dataset`: a list of column names
(the schema) together with a list of rows, each row a list of cell values
aligned with the schema.  Cell values are modelled by `Value`: null (NaN),
integers, strings, and calendar dates (the result of date normalization).

Each pipeline stage of `ReviewPreprocessor` becomes a function
`Dataset → Dataset` (or `Dataset → Option Dataset` where the Python code
can raise).  The stage bodies follow the Python source line by line.
-/

namespace Preprocessing

/-- A cell value of the tabular dataset: NaN, an integer, a string, or a
calendar date (year, month, day). -/
inductive Value where
  | vnull
  | vint (n : Int)
  | vstr (s : String)
  | vdate (y m d : Nat)
deriving DecidableEq, Repr

abbrev Row := List Value

/-- A pandas DataFrame: a schema (ordered column names) and the rows,
each row holding one cell per schema column, in schema order. -/
structure Dataset where
  schema : List String
  rows : List Row
deriving DecidableEq, Repr

/-- Well-formedness of a `Dataset`: column names are distinct and every
row has exactly one cell per column. -/
def Dataset.WF (d : Dataset) : Prop :=
  d.schema.Nodup ∧ ∀ r ∈ d.rows, r.length = d.schema.length

instance (d : Dataset) : Decidable d.WF := by
  unfold Dataset.WF; infer_instance

/-- Index of a column name in a schema (first occurrence), `none` if the
column is absent. -/
def colIdx : List String → String → Option Nat
  | [], _ => none
  | s :: ss, c => if s = c then some 0 else (colIdx ss c).map (· + 1)

/-- `df[c]` for one row: the cell of row `r` in column `c` of `schema`
(`.vnull` when the column is absent or the row is short). -/
def getCell (schema : List String) (r : Row) (c : String) : Value :=
  match colIdx schema c with
  | some i => r.getD i .vnull
  | none => .vnull

/-- `df[c] = vals`: overwrite column `c` with the given cells when it
exists, otherwise append it as a new column on the right (pandas column
assignment). -/
def setCol (d : Dataset) (c : String) (vals : List Value) : Dataset :=
  match colIdx d.schema c with
  | some i => ⟨d.schema, d.rows.zipWith (fun r v => r.set i v) vals⟩
  | none => ⟨d.schema ++ [c], d.rows.zipWith (fun r v => r ++ [v]) vals⟩

/-- `df[c] = df[c].map f`, pointwise on the existing column. -/
def mapCol (d : Dataset) (c : String) (f : Value → Value) : Dataset :=
  setCol d c (d.rows.map (fun r => f (getCell d.schema r c)))

/-- `df[c].fillna v`: replace nulls of column `c` by `v`. -/
def fillna (d : Dataset) (c : String) (v : Value) : Dataset :=
  mapCol d c (fun x => if x = .vnull then v else x)

/-- `str(x)` for a cell, as Python renders it (`float('nan')` prints as
`nan`; dates print in ISO form). -/
def valueStr : Value → String
  | .vnull => "nan"
  | .vint n => toString n
  | .vstr s => s
  | .vdate y m d => toString y ++ "-" ++ toString m ++ "-" ++ toString d

/-- Membership of a character in the Ethiopic block U+1200–U+137F. -/
def isEthiopic (ch : Char) : Bool :=
  0x1200 ≤ ch.toNat && ch.toNat ≤ 0x137F

/-- `contains_amharic(text)` (preprocessing.py:26-29): `str(text)` then
search for any character in `[ሀ-፿]`. -/
def contains_amharic (text : Value) : Bool :=
  (valueStr text).data.any isEthiopic

/-- The critical columns of the pipeline (preprocessing.py:64,72). -/
def critical_cols : List String := ["review_text", "rating", "bank_name"]

/-- `handle_missing_values` (preprocessing.py:70-88):
`dropna(subset=critical_cols)`, then `fillna` defaults for each optional
column that is present.  The critical columns are assumed present in the
schema (the spec requires the input to contain at least them; with a
missing critical column the Python `dropna` would raise instead). -/
def handle_missing_values (d : Dataset) : Dataset :=
  let d1 : Dataset :=
    ⟨d.schema,
     d.rows.filter (fun r =>
       critical_cols.all (fun c => getCell d.schema r c ≠ .vnull))⟩
  let d2 := if "user_name" ∈ d1.schema then fillna d1 "user_name" (.vstr "Anonymous") else d1
  let d3 := if "thumbs_up" ∈ d2.schema then fillna d2 "thumbs_up" (.vint 0) else d2
  if "reply_content" ∈ d3.schema then fillna d3 "reply_content" (.vstr "") else d3

/-- Combine a list of optional values: `some` of the list of results when
every entry is `some`, else `none` (the whole-column operation raises). -/
def optList : List (Option α) → Option (List α)
  | [] => some []
  | none :: _ => none
  | some a :: rest => (optList rest).map (a :: ·)

/-- Split a character list at every dash. -/
def splitDash : List Char → List (List Char)
  | [] => [[]]
  | c :: cs =>
    match splitDash cs with
    | [] => [[]]
    | g :: gs => if c = '-' then [] :: g :: gs else (c :: g) :: gs

/-- Read a non-empty all-digit character group as a number. -/
def digitsToNat : List Char → Option Nat
  | [] => none
  | l =>
    if l.all Char.isDigit then
      some (l.foldl (fun acc c => acc * 10 + (c.toNat - 48)) 0)
    else none

/-- Parse an ISO `YYYY-MM-DD` string into (year, month, day). -/
def parseYMD (s : String) : Option (Nat × Nat × Nat) :=
  match splitDash s.data with
  | [ys, ms, ds] =>
    match digitsToNat ys, digitsToNat ms, digitsToNat ds with
    | some y, some m, some dd =>
      if 1 ≤ m ∧ m ≤ 12 ∧ 1 ≤ dd ∧ dd ≤ 31 then some (y, m, dd) else none
    | _, _, _ => none
  | _ => none

/-- `pd.to_datetime` on one cell: dates pass through, ISO strings parse,
anything else fails (and the failure aborts the whole column). -/
def parseDateV : Value → Option (Nat × Nat × Nat)
  | .vdate y m d => some (y, m, d)
  | .vstr s => parseYMD s
  | _ => none

/-- The per-column date parse of `normalize_dates`: `some` of the parsed
dates when every `review_date` cell parses, `none` when the column is
absent (KeyError) or any cell fails. -/
def parseDateCol (d : Dataset) : Option (List (Nat × Nat × Nat)) :=
  if "review_date" ∈ d.schema then
    optList (d.rows.map (fun r => parseDateV (getCell d.schema r "review_date")))
  else none

/-- `normalize_dates` (preprocessing.py:90-99): inside `try`, convert
`review_date` to dates and derive `review_year` / `review_month`; any
failure is caught, a warning is logged, and the dataset is left as it
was. -/
def normalize_dates (d : Dataset) : Dataset :=
  match parseDateCol d with
  | none => d
  | some ymds =>
    let d1 := setCol d "review_date" (ymds.map (fun p => Value.vdate p.1 p.2.1 p.2.2))
    let d2 := setCol d1 "review_year" (ymds.map (fun p => Value.vint p.1))
    setCol d2 "review_month" (ymds.map (fun p => Value.vint p.2.1))

/-- Python `\s` whitespace (the ASCII members; `re.sub` and `str.strip`
use the same class). -/
def isPySpace (ch : Char) : Bool :=
  ch = ' ' || ch = '\t' || ch = '\n' || ch = '\r' ||
  ch = Char.ofNat 11 || ch = Char.ofNat 12

/-- First half of `re.sub(r'\s+', ' ', text)`: each whitespace character
becomes a space. -/
def normWs (ch : Char) : Char := if isPySpace ch then ' ' else ch

/-- Second half of `re.sub(r'\s+', ' ', text)`: runs of spaces collapse
to a single space. -/
def squeeze : List Char → List Char
  | [] => []
  | [c] => [c]
  | c1 :: c2 :: cs =>
    if c1 = ' ' && c2 = ' ' then squeeze (c2 :: cs)
    else c1 :: squeeze (c2 :: cs)

/-- `str.strip()`: drop leading and trailing whitespace. -/
def stripChars (l : List Char) : List Char :=
  ((l.dropWhile isPySpace).reverse.dropWhile isPySpace).reverse

/-- The whitespace normalization of `clean_review_text`
(preprocessing.py:107-110): `re.sub(r'\s+', ' ', text).strip()`. -/
def cleanString (s : String) : String :=
  ⟨stripChars (squeeze (s.data.map normWs))⟩

/-- `clean_review_text` (preprocessing.py:104-110): null/empty text
becomes the empty string, otherwise `str(text)` is whitespace-normalized
and stripped. -/
def clean_review_text : Value → Value
  | .vnull => .vstr ""
  | .vstr s => .vstr (cleanString s)
  | v => .vstr (cleanString (valueStr v))

/-- `.str.len()` on one cell: length for strings, NaN otherwise. -/
def strLen : Value → Option Nat
  | .vstr s => some s.length
  | _ => none

/-- `clean_text` (preprocessing.py:101-125): clean every `review_text`,
drop rows whose cleaned text is empty, then compute `text_length` as the
character count of the cleaned text. -/
def clean_text (d : Dataset) : Dataset :=
  let d1 := mapCol d "review_text" clean_review_text
  let d2 : Dataset :=
    ⟨d1.schema,
     d1.rows.filter (fun r => 0 < (strLen (getCell d1.schema r "review_text")).getD 0)⟩
  setCol d2 "text_length"
    (d2.rows.map (fun r =>
      match strLen (getCell d2.schema r "review_text") with
      | some n => Value.vint n
      | none => Value.vnull))

/-- `drop_duplicates` kernel: keep a row iff no identical row occurred
earlier; `seen` accumulates the retained prefix. -/
def dropDupsAux (seen : List Row) : List Row → List Row
  | [] => []
  | r :: rs =>
    if r ∈ seen then dropDupsAux seen rs
    else r :: dropDupsAux (r :: seen) rs

/-- `remove_duplicates` (preprocessing.py:127-137): `drop_duplicates()`
over all columns, keeping first occurrences. -/
def remove_duplicates (d : Dataset) : Dataset :=
  ⟨d.schema, dropDupsAux [] d.rows⟩

/-- `filter_non_english_reviews` (preprocessing.py:139-148): drop every
row whose `review_text` contains an Amharic character. -/
def filter_non_english_reviews (d : Dataset) : Dataset :=
  ⟨d.schema,
   d.rows.filter (fun r => !contains_amharic (getCell d.schema r "review_text"))⟩

/-- `(rating < 1) | (rating > 5)` for one cell (NaN comparisons are
False in pandas; ratings are numeric). -/
def ratingInvalid : Value → Bool
  | .vint n => decide (n < 1) || decide (5 < n)
  | _ => false

/-- `(rating >= 1) & (rating <= 5)` for one cell. -/
def ratingValid : Value → Bool
  | .vint n => decide (1 ≤ n) && decide (n ≤ 5)
  | _ => false

/-- `validate_ratings` (preprocessing.py:150-158): when any rating is
invalid, keep only rows with `1 <= rating <= 5`; otherwise leave the
dataset untouched. -/
def validate_ratings (d : Dataset) : Dataset :=
  if d.rows.any (fun r => ratingInvalid (getCell d.schema r "rating")) then
    ⟨d.schema, d.rows.filter (fun r => ratingValid (getCell d.schema r "rating"))⟩
  else d

/-- The fixed output column list of `prepare_final_output`
(preprocessing.py:163-176). -/
def output_columns : List String :=
  ["review_id", "review_text", "rating", "review_date", "review_year",
   "review_month", "bank_code", "bank_name", "user_name", "thumbs_up",
   "text_length", "source"]

/-- Lexicographic order on character lists (Python string comparison). -/
def charsLe : List Char → List Char → Bool
  | [], _ => true
  | _ :: _, [] => false
  | a :: as, b :: bs =>
    if a.toNat < b.toNat then true
    else if b.toNat < a.toNat then false
    else charsLe as bs

/-- Rank used to order cells of different kinds. -/
def valueRank : Value → Nat
  | .vnull => 0
  | .vint _ => 1
  | .vstr _ => 2
  | .vdate _ _ _ => 3

/-- Total order on cell values used by the sort: integers, strings and
dates compare naturally within their kind, kinds compare by rank. -/
def valueLe : Value → Value → Bool
  | .vint m, .vint n => decide (m ≤ n)
  | .vstr a, .vstr b => charsLe a.data b.data
  | .vdate y1 m1 d1, .vdate y2 m2 d2 =>
    if y1 < y2 then true
    else if y2 < y1 then false
    else if m1 < m2 then true
    else if m2 < m1 then false
    else decide (d1 ≤ d2)
  | a, b => decide (valueRank a ≤ valueRank b)

/-- The comparator of `sort_values(['bank_code', 'review_date'],
ascending=[True, False])`: `bank_code` ascending, ties by `review_date`
descending. -/
def finalLe (schema : List String) (r1 r2 : Row) : Bool :=
  let b1 := getCell schema r1 "bank_code"
  let b2 := getCell schema r2 "bank_code"
  if b1 = b2 then
    valueLe (getCell schema r2 "review_date") (getCell schema r1 "review_date")
  else valueLe b1 b2

/-- The column projection of `prepare_final_output`: the fixed list
restricted to columns present in the schema. -/
def finalCols (d : Dataset) : List String :=
  output_columns.filter (fun c => c ∈ d.schema)

/-- The projected rows of `prepare_final_output`, in their pre-sort
order. -/
def projectRows (d : Dataset) : List Row :=
  d.rows.map (fun r => (finalCols d).map (fun c => getCell d.schema r c))

/-- `prepare_final_output` (preprocessing.py:160-186): project onto the
fixed column list (silently dropping absent names), then
`sort_values(['bank_code', 'review_date'], ascending=[True, False])` —
which raises a `KeyError` when either sort column is absent from the
projected frame — and reset the index.  A multi-column pandas sort is
stable, modelled by `mergeSort`. -/
def prepare_final_output (d : Dataset) : Option Dataset :=
  if "bank_code" ∈ finalCols d ∧ "review_date" ∈ finalCols d then
    some ⟨finalCols d, (projectRows d).mergeSort (finalLe (finalCols d))⟩
  else none

/-- The dataset-transforming part of `process` (preprocessing.py:246-266)
after a successful load: stages 2–8 then the finalizer
(`check_missing_data` is read-only and does not change the dataset). -/
def pipeline_after_load (d : Dataset) : Option Dataset :=
  prepare_final_output
    (validate_ratings
      (filter_non_english_reviews
        (remove_duplicates
          (clean_text
            (normalize_dates
              (handle_missing_values d))))))

/-! ### Concrete datasets used as witnesses -/

/-- A well-formed dataset with the critical columns and `review_date`,
whose dates do not parse. -/
def dsBadDate : Dataset :=
  ⟨["review_text", "rating", "bank_name", "review_date"],
   [[.vstr "ok app", .vint 4, .vstr "CBE", .vstr "soon"],
    [.vstr "slow", .vint 2, .vstr "BOA", .vstr "2024-01-15"]]⟩

/-- A well-formed dataset with exactly the critical columns and no
optional column at all (in particular no `bank_code`, `review_date`). -/
def dsNoBankCode : Dataset :=
  ⟨["review_text", "rating", "bank_name"],
   [[.vstr "Nice", .vint 4, .vstr "CBE"]]⟩

/-- A well-formed dataset carrying the critical columns plus `bank_code`
and `review_date`, used to exercise the happy path. -/
def dsFull : Dataset :=
  ⟨["review_text", "rating", "bank_name", "review_date", "bank_code"],
   [[.vstr "Good  app", .vint 5, .vstr "CBE", .vstr "2024-01-02", .vstr "CBE"],
    [.vstr "bad", .vint 1, .vstr "BOA", .vstr "2024-03-04", .vstr "BOA"]]⟩

/-- A variant of `dsFull` whose second review contains an Ethiopic
character (ሀ, U+1200). -/
def dsAmh : Dataset :=
  ⟨["review_text", "rating", "bank_name", "review_date", "bank_code"],
   [[.vstr "Good app", .vint 5, .vstr "CBE", .vstr "2024-01-02", .vstr "CBE"],
    [.vstr "bad ሀ", .vint 1, .vstr "BOA", .vstr "2024-03-04", .vstr "BOA"]]⟩

/-- No two adjacent spaces. -/
def noDbl (l : List Char) : Prop :=
  l.Chain' (fun a b => ¬(a = ' ' ∧ b = ' '))

/-- Critical fields are non-null on every record. -/
def CriticalsOK (d : Dataset) : Prop :=
  ∀ r ∈ d.rows, ∀ c ∈ critical_cols, getCell d.schema r c ≠ .vnull

/-- No record's `review_text` contains an Ethiopic-range character. -/
def NoEthiopic (d : Dataset) : Prop :=
  ∀ r ∈ d.rows, ∀ ch ∈ (valueStr (getCell d.schema r "review_text")).data,
    ¬(0x1200 ≤ ch.toNat ∧ ch.toNat ≤ 0x137F)

/-- Every record's rating is an integer in the inclusive range [1, 5]. -/
def RatingOK (d : Dataset) : Prop :=
  ∀ r ∈ d.rows, ∃ n : Int,
    getCell d.schema r "rating" = .vint n ∧ 1 ≤ n ∧ n ≤ 5

/-- Every record's `text_length` equals the character count of its
`review_text`. -/
def TextLenOK (d : Dataset) : Prop :=
  ∀ r ∈ d.rows, ∃ s : String,
    getCell d.schema r "review_text" = .vstr s ∧
    getCell d.schema r "text_length" = .vint s.length


/-! ### Basic lemmas about column lookup -/

theorem colIdx_lt {s : List String} {c : String} {i : Nat}
    (h : colIdx s c = some i) : i < s.length := by
  induction s generalizing i with
  | nil => simp [colIdx] at h
  | cons a as ih =>
    simp only [colIdx] at h
    split at h
    · cases h; simp
    · cases hi : colIdx as c with
      | none => simp [hi] at h
      | some j =>
        simp only [hi, Option.map_some'] at h
        cases h
        simpa using Nat.succ_lt_succ (ih hi)

theorem colIdx_get {s : List String} {c : String} {i : Nat}
    (h : colIdx s c = some i) (hi : i < s.length) : s.get ⟨i, hi⟩ = c := by
  induction s generalizing i with
  | nil => simp [colIdx] at h
  | cons a as ih =>
    simp only [colIdx] at h
    split at h
    · cases h; simpa using by assumption
    · cases hi' : colIdx as c with
      | none => simp [hi'] at h
      | some j =>
        simp only [hi', Option.map_some'] at h
        cases h
        exact ih hi' (Nat.lt_of_succ_lt_succ hi)

theorem colIdx_eq_none {s : List String} {c : String} :
    colIdx s c = none ↔ c ∉ s := by
  induction s with
  | nil => simp [colIdx]
  | cons a as ih =>
    simp only [colIdx]
    split
    · subst a; simp
    · rename_i hne
      cases hi : colIdx as c <;>
        simp_all [Ne.symm hne]

theorem colIdx_isSome_of_mem {s : List String} {c : String} (h : c ∈ s) :
    ∃ i, colIdx s c = some i := by
  cases hi : colIdx s c with
  | none => exact absurd h (colIdx_eq_none.mp hi)
  | some j => exact ⟨j, rfl⟩

theorem colIdx_ne_of_ne {s : List String} {c c' : String} {i j : Nat}
    (hc : colIdx s c = some i) (hc' : colIdx s c' = some j)
    (hne : c ≠ c') : i ≠ j := by
  intro hij
  subst hij
  exact hne ((colIdx_get hc (colIdx_lt hc)).symm.trans (colIdx_get hc' (colIdx_lt hc)))

theorem colIdx_append_left {s t : List String} {c : String} (h : c ∈ s) :
    colIdx (s ++ t) c = colIdx s c := by
  induction s with
  | nil => simp at h
  | cons a as ih =>
    simp only [List.cons_append, colIdx]
    split
    · rfl
    · rename_i hne
      have : c ∈ as := by
        cases h with
        | head => exact absurd rfl hne
        | tail _ h' => exact h'
      rw [List.append_eq, ih this]

theorem colIdx_append_self {s : List String} {c : String} (h : c ∉ s) :
    colIdx (s ++ [c]) c = some s.length := by
  induction s with
  | nil => simp [colIdx]
  | cons a as ih =>
    simp only [List.cons_append, colIdx]
    have hac : a ≠ c := fun e => h (e ▸ List.mem_cons_self a as)
    rw [if_neg hac, List.append_eq, ih (fun hc => h (List.mem_cons_of_mem a hc))]
    rfl

/-! ### Lemmas about reading and writing cells -/

/-- Reading a column of a row built by mapping a function over the very
schema recovers the function's value. -/
theorem getCell_map_cols {cols : List String} {c : String}
    (f : String → Value) (h : c ∈ cols) :
    getCell cols (cols.map f) c = f c := by
  induction cols with
  | nil => simp at h
  | cons a as ih =>
    by_cases hac : a = c
    · subst hac
      simp [getCell, colIdx]
    · have hc : c ∈ as := by
        cases h with
        | head => exact absurd rfl hac
        | tail _ h' => exact h'
      have := ih hc
      simp only [getCell, colIdx, if_neg hac] at this ⊢
      cases hi : colIdx as c with
      | none => simp [hi] at this ⊢; exact this
      | some j => simp [hi] at this ⊢; exact this

/-- Setting one column leaves the cells of every other column unchanged. -/
theorem getCell_set_ne {s : List String} {c c' : String} {i : Nat} {r : Row}
    {v : Value} (hc : colIdx s c = some i) (hne : c' ≠ c) :
    getCell s (r.set i v) c' = getCell s r c' := by
  unfold getCell
  cases hc' : colIdx s c' with
  | none => rfl
  | some j =>
    have hij : j ≠ i := colIdx_ne_of_ne hc' hc hne
    simp [List.getD_eq_getElem?_getD, List.getElem?_set_ne (Ne.symm hij)]

/-- Setting a column then reading it back gives the written value. -/
theorem getCell_set_self {s : List String} {c : String} {i : Nat} {r : Row}
    {v : Value} (hc : colIdx s c = some i) (hlen : r.length = s.length) :
    getCell s (r.set i v) c = v := by
  unfold getCell
  rw [hc]
  have hi : i < r.length := hlen ▸ colIdx_lt hc
  simp [List.getD_eq_getElem?_getD, List.getElem?_set_self hi]

/-- Appending a fresh column leaves the cells of existing columns
unchanged. -/
theorem getCell_append_old {s : List String} {c c' : String} {r : Row}
    {v : Value} (h : c' ∈ s) (hlen : r.length = s.length) :
    getCell (s ++ [c]) (r ++ [v]) c' = getCell s r c' := by
  unfold getCell
  rw [colIdx_append_left h]
  cases hc' : colIdx s c' with
  | none => exact absurd h (colIdx_eq_none.mp hc')
  | some j =>
    have hj : j < r.length := hlen ▸ colIdx_lt hc'
    simp [List.getD_eq_getElem?_getD, List.getElem?_append_left hj]

/-- Appending a fresh column then reading it gives the appended value. -/
theorem getCell_append_self {s : List String} {c : String} {r : Row}
    {v : Value} (h : c ∉ s) (hlen : r.length = s.length) :
    getCell (s ++ [c]) (r ++ [v]) c = v := by
  unfold getCell
  rw [colIdx_append_self h]
  have : r.length ≤ s.length := Nat.le_of_eq hlen
  simp [List.getD_eq_getElem?_getD, List.getElem?_append_right this.ge.le, hlen]

theorem mem_zipWith {f : α → β → γ} {as : List α} {bs : List β} {x : γ}
    (h : x ∈ List.zipWith f as bs) : ∃ a ∈ as, ∃ b ∈ bs, x = f a b := by
  induction as generalizing bs with
  | nil => simp at h
  | cons a as ih =>
    cases bs with
    | nil => simp at h
    | cons b bs =>
      simp only [List.zipWith_cons_cons, List.mem_cons] at h
      rcases h with h | h
      · exact ⟨a, List.mem_cons_self _ _, b, List.mem_cons_self _ _, h⟩
      · obtain ⟨a', ha', b', hb', hx⟩ := ih h
        exact ⟨a', List.mem_cons_of_mem _ ha', b', List.mem_cons_of_mem _ hb', hx⟩

/-! ### Shape lemmas for `setCol` -/

/-- `setCol` on a present column, unfolded. -/
theorem setCol_eq_some {d : Dataset} {c : String} {i : Nat} {vals : List Value}
    (hc : colIdx d.schema c = some i) :
    setCol d c vals =
      ⟨d.schema, List.zipWith (fun r v => r.set i v) d.rows vals⟩ := by
  unfold setCol
  rw [hc]

/-- `setCol` on an absent column, unfolded. -/
theorem setCol_eq_none {d : Dataset} {c : String} {vals : List Value}
    (hc : colIdx d.schema c = none) :
    setCol d c vals =
      ⟨d.schema ++ [c], List.zipWith (fun r v => r ++ [v]) d.rows vals⟩ := by
  unfold setCol
  rw [hc]

/-- Writing one column: every cell of every other column is unchanged,
up to the row's provenance. -/
theorem cell_of_setCol {d : Dataset} {c c' : String} {vals : List Value}
    (hne : c' ≠ c)
    (hlen : ∀ r ∈ d.rows, r.length = d.schema.length) :
    ∀ r' ∈ (setCol d c vals).rows, ∃ r ∈ d.rows,
      getCell (setCol d c vals).schema r' c' = getCell d.schema r c' := by
  intro r' hr'
  cases hc : colIdx d.schema c with
  | some i =>
    rw [setCol_eq_some hc] at hr' ⊢
    obtain ⟨r, hr, v, _, rfl⟩ := mem_zipWith hr'
    exact ⟨r, hr, getCell_set_ne hc hne⟩
  | none =>
    rw [setCol_eq_none hc] at hr' ⊢
    obtain ⟨r, hr, v, _, rfl⟩ := mem_zipWith hr'
    refine ⟨r, hr, ?_⟩
    by_cases hmem : c' ∈ d.schema
    · exact getCell_append_old hmem (hlen r hr)
    · have h1 : colIdx (d.schema ++ [c]) c' = none := by
        rw [colIdx_eq_none]
        simp [hmem, hne]
      have h2 : colIdx d.schema c' = none := colIdx_eq_none.mpr hmem
      simp [getCell, h1, h2]

/-- `setCol` preserves well-formedness. -/
theorem WF_setCol {d : Dataset} (hwf : d.WF) (c : String) (vals : List Value) :
    (setCol d c vals).WF := by
  obtain ⟨hnd, hlen⟩ := hwf
  cases hc : colIdx d.schema c with
  | some i =>
    rw [setCol_eq_some hc]
    refine ⟨hnd, ?_⟩
    intro r' hr'
    obtain ⟨r, hr, v, _, rfl⟩ := mem_zipWith hr'
    simpa using hlen r hr
  | none =>
    have hcmem : c ∉ d.schema := colIdx_eq_none.mp hc
    rw [setCol_eq_none hc]
    refine ⟨?_, ?_⟩
    · simpa [List.nodup_append] using ⟨hnd, hcmem⟩
    · intro r' hr'
      obtain ⟨r, hr, v, _, rfl⟩ := mem_zipWith hr'
      simp [hlen r hr]

/-- `setCol` never grows the row count. -/
theorem length_setCol_le (d : Dataset) (c : String) (vals : List Value) :
    (setCol d c vals).rows.length ≤ d.rows.length := by
  cases hc : colIdx d.schema c with
  | some i => rw [setCol_eq_some hc]; simp [Nat.min_le_left]
  | none => rw [setCol_eq_none hc]; simp [Nat.min_le_left]

/-- Writing a column computed from each row itself: the per-row form of
the updated row list, existing-column case. -/
theorem setCol_map_rows_some {d : Dataset} {c : String} {i : Nat}
    (g : Row → Value) (hc : colIdx d.schema c = some i) :
    setCol d c (d.rows.map g) =
      ⟨d.schema, d.rows.map (fun r => r.set i (g r))⟩ := by
  rw [setCol_eq_some hc, List.zipWith_map_right, List.zipWith_same]

/-- Writing a column computed from each row itself, fresh-column case. -/
theorem setCol_map_rows_none {d : Dataset} {c : String}
    (g : Row → Value) (hc : colIdx d.schema c = none) :
    setCol d c (d.rows.map g) =
      ⟨d.schema ++ [c], d.rows.map (fun r => r ++ [g r])⟩ := by
  rw [setCol_eq_none hc, List.zipWith_map_right, List.zipWith_same]

/-- Reading back the column just written from a row-computed value. -/
theorem getCell_setCol_map_self {d : Dataset} {c : String} (g : Row → Value)
    (hlen : ∀ r ∈ d.rows, r.length = d.schema.length) :
    ∀ r' ∈ (setCol d c (d.rows.map g)).rows, ∃ r ∈ d.rows,
      getCell (setCol d c (d.rows.map g)).schema r' c = g r := by
  intro r' hr'
  cases hc : colIdx d.schema c with
  | some i =>
    rw [setCol_map_rows_some g hc] at hr' ⊢
    simp only [List.mem_map] at hr'
    obtain ⟨r, hr, rfl⟩ := hr'
    exact ⟨r, hr, getCell_set_self hc (hlen r hr)⟩
  | none =>
    rw [setCol_map_rows_none g hc] at hr' ⊢
    simp only [List.mem_map] at hr'
    obtain ⟨r, hr, rfl⟩ := hr'
    exact ⟨r, hr, getCell_append_self (colIdx_eq_none.mp hc) (hlen r hr)⟩

/-- Writing a row-computed column: the written cell reads back as the
computed value, and any other present column keeps its old cell. -/
theorem getCell_setCol_map_pair {d : Dataset} {c c' : String} (g : Row → Value)
    (hne : c' ≠ c) (hc' : c' ∈ d.schema)
    (hlen : ∀ r ∈ d.rows, r.length = d.schema.length) :
    ∀ r' ∈ (setCol d c (d.rows.map g)).rows, ∃ r ∈ d.rows,
      getCell (setCol d c (d.rows.map g)).schema r' c = g r ∧
      getCell (setCol d c (d.rows.map g)).schema r' c' = getCell d.schema r c' := by
  intro r' hr'
  cases hc : colIdx d.schema c with
  | some i =>
    rw [setCol_map_rows_some g hc] at hr' ⊢
    simp only [List.mem_map] at hr'
    obtain ⟨r, hr, rfl⟩ := hr'
    exact ⟨r, hr, getCell_set_self hc (hlen r hr), getCell_set_ne hc hne⟩
  | none =>
    rw [setCol_map_rows_none g hc] at hr' ⊢
    simp only [List.mem_map] at hr'
    obtain ⟨r, hr, rfl⟩ := hr'
    exact ⟨r, hr, getCell_append_self (colIdx_eq_none.mp hc) (hlen r hr),
      getCell_append_old hc' (hlen r hr)⟩

/-- The written column is present in the schema afterwards. -/
theorem mem_schema_setCol_self (d : Dataset) (c : String) (vals : List Value) :
    c ∈ (setCol d c vals).schema := by
  cases hc : colIdx d.schema c with
  | some i =>
    rw [setCol_eq_some hc]
    have hg := colIdx_get hc (colIdx_lt hc)
    exact hg ▸ List.get_mem _ _ _
  | none =>
    rw [setCol_eq_none hc]
    simp

/-- Schema membership survives writing any column. -/
theorem mem_schema_setCol (d : Dataset) (c c' : String) (vals : List Value)
    (h : c' ∈ d.schema) : c' ∈ (setCol d c vals).schema := by
  cases hc : colIdx d.schema c with
  | some i => rw [setCol_eq_some hc]; exact h
  | none => rw [setCol_eq_none hc]; exact List.mem_append_left _ h


/-! ### C2: date-normalization failure leaves the dataset untouched -/

/-- C2: on any dataset whose `review_date` column fails to parse (or is
absent, which the same `try`/`except` catches), `normalize_dates`
returns the dataset exactly as it was: no column is added, changed or
removed, and no error escapes the stage. -/
theorem c2_normalize_dates_fail_id (d : Dataset)
    (h : parseDateCol d = none) : normalize_dates d = d := by
  unfold normalize_dates
  rw [h]

/-- C2 witness: a concrete dataset with an unparseable `review_date`. -/
theorem c2_normalize_dates_fail_id_witness :
    normalize_dates dsBadDate = dsBadDate :=
  c2_normalize_dates_fail_id dsBadDate (by decide)

/-! ### C1: the Finalizer is not total on datasets lacking `bank_code` -/

/-- C1 counterexample: the claim says `prepare_final_output` completes
without error on every dataset holding the critical columns, even when
optional columns such as `bank_code` are absent.  On this concrete
well-formed dataset with exactly the critical columns, the sort step
`sort_values(['bank_code', 'review_date'])` raises a `KeyError`
(modelled as `none`): the Finalizer does not complete. -/
theorem c1_counterexample_missing_bank_code :
    critical_cols ⊆ dsNoBankCode.schema ∧ dsNoBankCode.WF ∧
      prepare_final_output dsNoBankCode = none :=
  ⟨by decide, by decide, rfl⟩

/-- C1 (amended): for every dataset containing `bank_code` and
`review_date` in addition to whatever else, `prepare_final_output`
completes without error; its output schema is exactly the fixed column
list restricted to columns present in the input (absent optional
columns are silently omitted), and no column outside the fixed list
ever appears. -/
theorem c1_final_output_total (d : Dataset)
    (hb : "bank_code" ∈ d.schema) (hd : "review_date" ∈ d.schema) :
    ∃ out, prepare_final_output d = some out ∧
      out.schema = output_columns.filter (fun c => c ∈ d.schema) ∧
      ∀ c ∈ out.schema, c ∈ output_columns := by
  have hb' : "bank_code" ∈ finalCols d := by
    unfold finalCols
    rw [List.mem_filter]
    exact ⟨by decide, by simpa using hb⟩
  have hd' : "review_date" ∈ finalCols d := by
    unfold finalCols
    rw [List.mem_filter]
    exact ⟨by decide, by simpa using hd⟩
  refine ⟨⟨finalCols d, (projectRows d).mergeSort (finalLe (finalCols d))⟩,
    ?_, rfl, ?_⟩
  · unfold prepare_final_output
    rw [if_pos ⟨hb', hd'⟩]
  · intro c hc
    have hc' : c ∈ output_columns.filter (fun c => c ∈ d.schema) := hc
    exact List.mem_of_mem_filter hc'

/-- C1 witness: the amended statement at a concrete dataset having
`bank_code` and `review_date`. -/
theorem c1_final_output_total_witness :
    ∃ out, prepare_final_output dsFull = some out ∧
      out.schema = output_columns.filter (fun c => c ∈ dsFull.schema) ∧
      ∀ c ∈ out.schema, c ∈ output_columns :=
  c1_final_output_total dsFull (by decide) (by decide)

/-! ### C5: deduplication -/

theorem dropDupsAux_sublist (l : List Row) :
    ∀ seen, List.Sublist (dropDupsAux seen l) l := by
  induction l with
  | nil => intro seen; simp [dropDupsAux]
  | cons r rs ih =>
    intro seen
    unfold dropDupsAux
    split
    · exact (ih seen).trans (List.sublist_cons_self r rs)
    · exact (ih (r :: seen)).cons₂ r

theorem mem_dropDupsAux {x : Row} (l : List Row) :
    ∀ seen, x ∈ dropDupsAux seen l ↔ x ∈ l ∧ x ∉ seen := by
  induction l with
  | nil => intro seen; simp [dropDupsAux]
  | cons r rs ih =>
    intro seen
    unfold dropDupsAux
    split
    · rename_i hmem
      rw [ih seen]
      constructor
      · rintro ⟨h1, h2⟩
        exact ⟨List.mem_cons_of_mem r h1, h2⟩
      · rintro ⟨h1, h2⟩
        cases List.mem_cons.mp h1 with
        | inl he => exact absurd (he ▸ hmem) h2
        | inr hr => exact ⟨hr, h2⟩
    · rename_i hmem
      rw [List.mem_cons, ih (r :: seen)]
      constructor
      · rintro (rfl | ⟨h1, h2⟩)
        · exact ⟨List.mem_cons_self _ _, hmem⟩
        · exact ⟨List.mem_cons_of_mem r h1,
            fun hs => h2 (List.mem_cons_of_mem r hs)⟩
      · rintro ⟨h1, h2⟩
        by_cases hx : x = r
        · exact Or.inl hx
        · cases List.mem_cons.mp h1 with
          | inl he => exact absurd he hx
          | inr hr =>
            refine Or.inr ⟨hr, fun hs => ?_⟩
            cases List.mem_cons.mp hs with
            | inl he => exact hx he
            | inr hs' => exact h2 hs'

theorem nodup_dropDupsAux (l : List Row) :
    ∀ seen, (dropDupsAux seen l).Nodup := by
  induction l with
  | nil => intro seen; simp [dropDupsAux]
  | cons r rs ih =>
    intro seen
    unfold dropDupsAux
    split
    · exact ih seen
    · refine List.Nodup.cons ?_ (ih (r :: seen))
      intro hmem
      exact ((mem_dropDupsAux rs (r :: seen)).mp hmem).2 (List.mem_cons_self _ _)

theorem dropDupsAux_eq_filter_enum (l : List Row) :
    ∀ seen, dropDupsAux seen l =
      (l.enum.filter (fun p => decide (p.2 ∉ seen) &&
        decide (∀ j < p.1, l[j]? ≠ some p.2))).map Prod.snd := by
  induction l with
  | nil => intro seen; simp [dropDupsAux]
  | cons r rs ih =>
    intro seen
    rw [List.enum_cons' r rs, List.filter_cons, List.filter_map]
    have htail : ∀ p : Nat × Row,
        ((fun p : Nat × Row => decide (p.2 ∉ seen) &&
            decide (∀ j < p.1, (r :: rs)[j]? ≠ some p.2)) ∘
          Prod.map (· + 1) id) p =
        (fun p : Nat × Row => decide (p.2 ∉ r :: seen) &&
            decide (∀ j < p.1, rs[j]? ≠ some p.2)) p := by
      rintro ⟨i, x⟩
      apply Bool.eq_iff_iff.mpr
      simp only [Function.comp_apply, Prod.map_apply, id_eq,
        Bool.and_eq_true, decide_eq_true_eq, List.mem_cons, not_or]
      constructor
      · rintro ⟨h1, h2⟩
        refine ⟨⟨fun he => ?_, h1⟩, fun j hj => ?_⟩
        · exact h2 0 (Nat.succ_pos i) (by simp [he])
        · have := h2 (j + 1) (Nat.succ_lt_succ hj)
          simpa using this
      · rintro ⟨⟨hxr, h1⟩, h2⟩
        refine ⟨h1, fun j hj => ?_⟩
        cases j with
        | zero => simpa [eq_comm] using hxr
        | succ j' =>
          have := h2 j' (Nat.lt_of_succ_lt_succ hj)
          simpa using this
    rw [List.filter_congr (fun p _ => htail p)]
    have hsnd : (Prod.snd ∘ Prod.map (fun x => x + 1) (@id Row)) = Prod.snd := by
      funext p
      rfl
    unfold dropDupsAux
    split
    · rename_i hmem
      rw [if_neg (by simp [hmem]), List.map_map, hsnd, ih seen]
      apply congrArg
      apply List.filter_congr
      rintro ⟨i, x⟩ _
      apply Bool.eq_iff_iff.mpr
      simp only [Bool.and_eq_true, decide_eq_true_eq, List.mem_cons, not_or]
      constructor
      · rintro ⟨h1, h2⟩
        exact ⟨⟨fun he => h1 (he ▸ hmem), h1⟩, h2⟩
      · rintro ⟨h1, h2⟩
        exact ⟨h1.2, h2⟩
    · rename_i hmem
      rw [if_pos (by simp [hmem]), List.map_cons, List.map_map, hsnd,
        ih (r :: seen)]

/-- C5: `remove_duplicates` keeps the schema; its surviving rows are
exactly the records with no identical record earlier in the dataset, in
their original relative order (a filter of the position-indexed rows);
survivors form a sublist of the input, and no two survivors are
identical. -/
theorem c5_remove_duplicates_spec (d : Dataset) :
    (remove_duplicates d).schema = d.schema ∧
    (remove_duplicates d).rows =
      (d.rows.enum.filter
        (fun p => decide (∀ j < p.1, d.rows[j]? ≠ some p.2))).map Prod.snd ∧
    List.Sublist (remove_duplicates d).rows d.rows ∧
    (remove_duplicates d).rows.Nodup := by
  refine ⟨rfl, ?_, dropDupsAux_sublist d.rows [], nodup_dropDupsAux d.rows []⟩
  show dropDupsAux [] d.rows = _
  rw [dropDupsAux_eq_filter_enum d.rows []]
  have hcond : ∀ p ∈ d.rows.enum,
      (decide (p.2 ∉ ([] : List Row)) &&
        decide (∀ j < p.1, d.rows[j]? ≠ some p.2)) =
      decide (∀ j < p.1, d.rows[j]? ≠ some p.2) := by
    intro p _
    simp
  rw [List.filter_congr hcond]

/-! ### C9: idempotence of the whitespace normalization -/


theorem squeeze_head (xs : List Char) :
    ∀ x, (squeeze (x :: xs)).head? = some x := by
  induction xs with
  | nil => intro x; rfl
  | cons c2 cs ih =>
    intro x
    unfold squeeze
    split
    · rename_i hsp
      have hx : x = ' ' := of_decide_eq_true ((Bool.and_eq_true _ _).mp hsp).1
      have hc2 : c2 = ' ' := of_decide_eq_true ((Bool.and_eq_true _ _).mp hsp).2
      rw [ih c2, hx, hc2]
    · rfl

theorem squeeze_noDbl (l : List Char) : noDbl (squeeze l) := by
  induction l with
  | nil => exact List.chain'_nil
  | cons c1 t ih =>
    cases t with
    | nil => simp [squeeze, noDbl]
    | cons c2 cs =>
      unfold squeeze
      split
      · exact ih
      · rename_i hsp
        refine List.chain'_cons'.mpr ⟨?_, ih⟩
        intro y hy
        rw [squeeze_head cs c2] at hy
        cases hy
        intro ⟨h1, h2⟩
        rw [h1, h2] at hsp
        simp at hsp

theorem squeeze_eq_self (l : List Char) (h : noDbl l) : squeeze l = l := by
  induction l with
  | nil => rfl
  | cons c1 t ih =>
    cases t with
    | nil => rfl
    | cons c2 cs =>
      obtain ⟨hrel, htail⟩ := List.chain'_cons'.mp h
      have hne : (c1 = ' ' && c2 = ' ') = false := by
        by_contra hb
        have := hrel c2 rfl
        simp only [Bool.not_eq_false, Bool.and_eq_true, decide_eq_true_eq] at hb
        exact this ⟨hb.1, hb.2⟩
      unfold squeeze
      rw [hne]
      simp only [Bool.false_eq_true, if_false]
      rw [ih htail]

theorem squeeze_sublist (l : List Char) : List.Sublist (squeeze l) l := by
  induction l with
  | nil => simp [squeeze]
  | cons c1 t ih =>
    cases t with
    | nil => simp [squeeze]
    | cons c2 cs =>
      unfold squeeze
      split
      · exact ih.trans (List.sublist_cons_self _ _)
      · exact ih.cons₂ c1

theorem stripChars_sublist (l : List Char) :
    List.Sublist (stripChars l) l := by
  unfold stripChars
  have s1 : List.Sublist (l.dropWhile isPySpace) l := List.dropWhile_sublist _
  have s2 : List.Sublist ((l.dropWhile isPySpace).reverse.dropWhile isPySpace)
      (l.dropWhile isPySpace).reverse := List.dropWhile_sublist _
  have s3 := s2.reverse
  rw [List.reverse_reverse] at s3
  exact s3.trans s1

theorem noDbl_reverse {l : List Char} (h : noDbl l) : noDbl l.reverse := by
  apply List.chain'_reverse.mpr
  exact h.imp (fun a b hab ⟨h1, h2⟩ => hab ⟨h2, h1⟩)

theorem noDbl_of_suffix {l t : List Char} (h : noDbl (t ++ l)) : noDbl l :=
  List.Chain'.suffix h ⟨t, rfl⟩

theorem noDbl_dropWhile {l : List Char} (h : noDbl l) :
    noDbl (l.dropWhile isPySpace) := by
  obtain ⟨t, ht⟩ := @List.dropWhile_suffix _ l isPySpace
  exact noDbl_of_suffix (ht ▸ h)

theorem noDbl_stripChars {l : List Char} (h : noDbl l) :
    noDbl (stripChars l) := by
  unfold stripChars
  exact noDbl_reverse (noDbl_dropWhile (noDbl_reverse (noDbl_dropWhile h)))

theorem head_dropWhile_not (p : Char → Bool) (l : List Char) {h : Char}
    (hh : (l.dropWhile p).head? = some h) : ¬ p h = true := by
  induction l with
  | nil => simp at hh
  | cons a t ih =>
    by_cases hp : p a
    · rw [List.dropWhile_cons_of_pos hp] at hh
      exact ih hh
    · rw [List.dropWhile_cons_of_neg hp] at hh
      cases hh
      exact hp

theorem dropWhile_eq_self_of_head (p : Char → Bool) (l : List Char)
    (hl : ∀ h, l.head? = some h → ¬ p h = true) : l.dropWhile p = l := by
  cases l with
  | nil => rfl
  | cons a t => exact List.dropWhile_cons_of_neg (hl a rfl)

theorem getLast?_of_dropWhile {p : Char → Bool} {l : List Char} {h : Char}
    (hh : (l.dropWhile p).getLast? = some h) : l.getLast? = some h := by
  obtain ⟨t, ht⟩ := @List.dropWhile_suffix _ l p
  rw [← ht, List.getLast?_append, hh]
  rfl

theorem head?_stripChars_not {l : List Char} {h : Char}
    (hh : (stripChars l).head? = some h) : ¬ isPySpace h = true := by
  unfold stripChars at hh
  rw [List.head?_reverse] at hh
  have h2 := getLast?_of_dropWhile hh
  rw [List.getLast?_reverse] at h2
  exact head_dropWhile_not isPySpace l h2

theorem getLast?_stripChars_not {l : List Char} {h : Char}
    (hh : (stripChars l).getLast? = some h) : ¬ isPySpace h = true := by
  unfold stripChars at hh
  rw [List.getLast?_reverse] at hh
  exact head_dropWhile_not isPySpace _ hh

theorem stripChars_idem (l : List Char) :
    stripChars (stripChars l) = stripChars l := by
  have h1 : (stripChars l).dropWhile isPySpace = stripChars l :=
    dropWhile_eq_self_of_head _ _ (fun h hh => head?_stripChars_not hh)
  have h2 : (stripChars l).reverse.dropWhile isPySpace = (stripChars l).reverse := by
    apply dropWhile_eq_self_of_head
    intro h hh
    rw [List.head?_reverse] at hh
    exact getLast?_stripChars_not hh
  show ((((stripChars l).dropWhile isPySpace).reverse.dropWhile isPySpace).reverse)
      = stripChars l
  rw [h1, h2, List.reverse_reverse]

theorem allSpace_map_normWs (l : List Char) :
    ∀ c ∈ l.map normWs, isPySpace c = true → c = ' ' := by
  intro c hc hsp
  obtain ⟨a, _, rfl⟩ := List.mem_map.mp hc
  unfold normWs at hsp ⊢
  by_cases hp : isPySpace a
  · rw [if_pos hp]
  · rw [if_neg hp] at hsp ⊢
    exact absurd hsp hp

/-- C9: the whitespace normalization of `clean_review_text` is
idempotent — cleaning an already-cleaned string returns it unchanged:
`clean(clean(s)) = clean(s)` for every string `s`. -/
theorem c9_cleanString_idem (s : String) :
    cleanString (cleanString s) = cleanString s := by
  unfold cleanString
  apply congrArg String.mk
  show stripChars (squeeze ((stripChars (squeeze (s.data.map normWs))).map normWs))
      = stripChars (squeeze (s.data.map normWs))
  set l1 : List Char := squeeze (s.data.map normWs) with hl1
  set l2 : List Char := stripChars l1 with hl2
  have hallsp : ∀ c ∈ l2, isPySpace c = true → c = ' ' := by
    intro c hc
    have hc1 : c ∈ l1 := (stripChars_sublist l1).subset hc
    have hc0 : c ∈ s.data.map normWs := (squeeze_sublist _).subset hc1
    exact allSpace_map_normWs s.data c hc0
  have hmap : l2.map normWs = l2 := by
    have hcong : ∀ c ∈ l2, normWs c = id c := ?_
    · rw [List.map_congr_left hcong, List.map_id]
    intro c hc
    show normWs c = c
    unfold normWs
    by_cases hp : isPySpace c
    · rw [if_pos hp]
      exact (hallsp c hc hp).symm
    · rw [if_neg hp]
  have hnd2 : noDbl l2 := noDbl_stripChars (squeeze_noDbl _)
  rw [hmap, squeeze_eq_self l2 hnd2, hl2, stripChars_idem]

/-! ### Well-formedness and schema evolution through the stages -/

theorem WF_mk_filter {d : Dataset} (hwf : d.WF) (q : Row → Bool) :
    (Dataset.mk d.schema (d.rows.filter q)).WF :=
  ⟨hwf.1, fun r hr => hwf.2 r (List.mem_of_mem_filter hr)⟩

theorem WF_fillna_step {e : Dataset} (hwf : e.WF) (cond : Prop)
    [Decidable cond] (c : String) (v : Value) :
    (if cond then fillna e c v else e).WF := by
  split
  · exact WF_setCol hwf _ _
  · exact hwf

theorem WF_handle_missing_values {d : Dataset} (hwf : d.WF) :
    (handle_missing_values d).WF := by
  unfold handle_missing_values
  exact WF_fillna_step (WF_fillna_step (WF_fillna_step
    (WF_mk_filter hwf _) _ _ _) _ _ _) _ _ _

theorem WF_normalize_dates {d : Dataset} (hwf : d.WF) :
    (normalize_dates d).WF := by
  unfold normalize_dates
  cases parseDateCol d with
  | none => exact hwf
  | some ymds => exact WF_setCol (WF_setCol (WF_setCol hwf _ _) _ _) _ _

theorem WF_clean_text {d : Dataset} (hwf : d.WF) : (clean_text d).WF := by
  unfold clean_text
  exact WF_setCol (WF_mk_filter (WF_setCol hwf _ _) _) _ _

theorem WF_remove_duplicates {d : Dataset} (hwf : d.WF) :
    (remove_duplicates d).WF :=
  ⟨hwf.1, fun r hr => hwf.2 r ((dropDupsAux_sublist d.rows []).subset hr)⟩

theorem WF_filter_non_english {d : Dataset} (hwf : d.WF) :
    (filter_non_english_reviews d).WF :=
  WF_mk_filter hwf _

theorem WF_validate_ratings {d : Dataset} (hwf : d.WF) :
    (validate_ratings d).WF := by
  unfold validate_ratings
  split
  · exact WF_mk_filter hwf _
  · exact hwf

theorem mem_schema_fillna_step (e : Dataset) {c' : String} (cond : Prop)
    [Decidable cond] (c : String) (v : Value) (h : c' ∈ e.schema) :
    c' ∈ (if cond then fillna e c v else e).schema := by
  split
  · exact mem_schema_setCol _ _ _ _ h
  · exact h

theorem mem_schema_handle_missing_values {d : Dataset} {c' : String}
    (h : c' ∈ d.schema) : c' ∈ (handle_missing_values d).schema := by
  unfold handle_missing_values
  exact mem_schema_fillna_step _ _ _ _
    (mem_schema_fillna_step _ _ _ _ (mem_schema_fillna_step _ _ _ _ h))

theorem mem_schema_normalize_dates {d : Dataset} {c' : String}
    (h : c' ∈ d.schema) : c' ∈ (normalize_dates d).schema := by
  unfold normalize_dates
  cases parseDateCol d with
  | none => exact h
  | some ymds =>
    exact mem_schema_setCol _ _ _ _
      (mem_schema_setCol _ _ _ _ (mem_schema_setCol _ _ _ _ h))

theorem mem_schema_clean_text {d : Dataset} {c' : String}
    (h : c' ∈ d.schema) : c' ∈ (clean_text d).schema := by
  unfold clean_text
  exact mem_schema_setCol _ _ _ _ (mem_schema_setCol _ _ _ _ h)

theorem review_text_mem_clean_text (d : Dataset) :
    "review_text" ∈ (clean_text d).schema := by
  unfold clean_text
  exact mem_schema_setCol _ _ _ _ (mem_schema_setCol_self _ _ _)

theorem text_length_mem_clean_text (d : Dataset) :
    "text_length" ∈ (clean_text d).schema := by
  unfold clean_text
  exact mem_schema_setCol_self _ _ _

theorem schema_remove_duplicates (d : Dataset) :
    (remove_duplicates d).schema = d.schema := rfl

theorem schema_filter_non_english (d : Dataset) :
    (filter_non_english_reviews d).schema = d.schema := rfl

theorem schema_validate_ratings (d : Dataset) :
    (validate_ratings d).schema = d.schema := by
  unfold validate_ratings
  split <;> rfl

/-! ### The finalizer's projection, cell-wise -/

theorem prepare_final_output_eq {d out : Dataset}
    (hfin : prepare_final_output d = some out) :
    out = ⟨finalCols d, (projectRows d).mergeSort (finalLe (finalCols d))⟩ := by
  unfold prepare_final_output at hfin
  split at hfin
  · exact (Option.some.injEq _ _ ▸ hfin).symm
  · exact absurd hfin (by simp)

/-- Every row of the finalizer's output reads, on each projected column,
the same cell as some row of the input dataset. -/
theorem cell_of_final {d out : Dataset} {c : String}
    (hfin : prepare_final_output d = some out)
    (hc : c ∈ output_columns) (hcs : c ∈ d.schema) :
    ∀ r' ∈ out.rows, ∃ r ∈ d.rows,
      getCell out.schema r' c = getCell d.schema r c := by
  rw [prepare_final_output_eq hfin]
  intro r' hr'
  have hr'' : r' ∈ projectRows d := List.mem_mergeSort.mp hr'
  obtain ⟨r, hr, rfl⟩ := List.mem_map.mp hr''
  refine ⟨r, hr, ?_⟩
  apply getCell_map_cols
  unfold finalCols
  rw [List.mem_filter]
  exact ⟨hc, by simpa using hcs⟩

/-! ### C6: non-null critical fields -/

theorem criticalsOK_mk_sub {s : List String} {rows rows' : List Row}
    (hsub : ∀ r ∈ rows', r ∈ rows) (h : CriticalsOK ⟨s, rows⟩) :
    CriticalsOK ⟨s, rows'⟩ :=
  fun r hr => h r (hsub r hr)

theorem criticalsOK_setCol {d : Dataset} {c : String} {vals : List Value}
    (hc : c ∉ critical_cols)
    (hlen : ∀ r ∈ d.rows, r.length = d.schema.length)
    (h : CriticalsOK d) : CriticalsOK (setCol d c vals) := by
  intro r' hr' cc hcc
  have hne : cc ≠ c := fun he => hc (he ▸ hcc)
  obtain ⟨r, hr, heq⟩ := cell_of_setCol hne hlen r' hr'
  rw [heq]
  exact h r hr cc hcc

theorem criticalsOK_fillna_step {e : Dataset} (hwf : e.WF) (cond : Prop)
    [Decidable cond] (c : String) (v : Value) (hc : c ∉ critical_cols)
    (h : CriticalsOK e) : CriticalsOK (if cond then fillna e c v else e) := by
  split
  · exact criticalsOK_setCol hc hwf.2 h
  · exact h

theorem criticalsOK_handle_missing_values {d : Dataset} (hwf : d.WF) :
    CriticalsOK (handle_missing_values d) := by
  have h1 : CriticalsOK ⟨d.schema, d.rows.filter (fun r =>
      critical_cols.all (fun c => getCell d.schema r c ≠ .vnull))⟩ := by
    intro r hr cc hcc
    have hb := List.of_mem_filter hr
    have hall := List.all_eq_true.mp hb cc hcc
    exact of_decide_eq_true hall
  unfold handle_missing_values
  exact criticalsOK_fillna_step
    (WF_fillna_step (WF_fillna_step (WF_mk_filter hwf _) _ _ _) _ _ _)
    _ _ _ (by decide)
    (criticalsOK_fillna_step (WF_fillna_step (WF_mk_filter hwf _) _ _ _)
      _ _ _ (by decide)
      (criticalsOK_fillna_step (WF_mk_filter hwf _) _ _ _ (by decide) h1))

theorem criticalsOK_normalize_dates {d : Dataset} (hwf : d.WF)
    (h : CriticalsOK d) : CriticalsOK (normalize_dates d) := by
  unfold normalize_dates
  cases parseDateCol d with
  | none => exact h
  | some ymds =>
    exact criticalsOK_setCol (by decide) (WF_setCol (WF_setCol hwf _ _) _ _).2
      (criticalsOK_setCol (by decide) (WF_setCol hwf _ _).2
        (criticalsOK_setCol (by decide) hwf.2 h))

theorem clean_review_text_vstr (v : Value) :
    ∃ s : String, clean_review_text v = .vstr s := by
  cases v with
  | vnull => exact ⟨"", rfl⟩
  | vint n => exact ⟨_, rfl⟩
  | vstr s => exact ⟨_, rfl⟩
  | vdate y m dd => exact ⟨_, rfl⟩

theorem criticalsOK_clean_text {d : Dataset} (hwf : d.WF)
    (h : CriticalsOK d) : CriticalsOK (clean_text d) := by
  unfold clean_text
  have hd1 : CriticalsOK
      (mapCol d "review_text" clean_review_text) := by
    unfold mapCol
    intro r' hr' cc hcc
    by_cases hrt : cc = "review_text"
    · subst hrt
      obtain ⟨r, hr, heq⟩ := getCell_setCol_map_self
        (fun r => clean_review_text (getCell d.schema r "review_text"))
        hwf.2 r' hr'
      rw [heq]
      obtain ⟨s, hs⟩ := clean_review_text_vstr (getCell d.schema r "review_text")
      rw [hs]
      exact fun hcon => Value.noConfusion hcon
    · obtain ⟨r, hr, heq⟩ := cell_of_setCol hrt hwf.2 r' hr'
      rw [heq]
      exact h r hr cc hcc
  have hwf1 : (mapCol d "review_text" clean_review_text).WF :=
    WF_setCol hwf _ _
  have hd2 : CriticalsOK
      ⟨(mapCol d "review_text" clean_review_text).schema,
       (mapCol d "review_text" clean_review_text).rows.filter
         (fun r => 0 <
           (strLen (getCell (mapCol d "review_text" clean_review_text).schema
             r "review_text")).getD 0)⟩ :=
    criticalsOK_mk_sub (fun r hr => List.mem_of_mem_filter hr) hd1
  exact criticalsOK_setCol (by decide) (WF_mk_filter hwf1 _).2 hd2

theorem criticalsOK_remove_duplicates {d : Dataset}
    (h : CriticalsOK d) : CriticalsOK (remove_duplicates d) :=
  criticalsOK_mk_sub (fun r hr => (dropDupsAux_sublist d.rows []).subset hr) h

theorem criticalsOK_filter_non_english {d : Dataset}
    (h : CriticalsOK d) : CriticalsOK (filter_non_english_reviews d) :=
  criticalsOK_mk_sub (fun r hr => List.mem_of_mem_filter hr) h

theorem criticalsOK_validate_ratings {d : Dataset}
    (h : CriticalsOK d) : CriticalsOK (validate_ratings d) := by
  unfold validate_ratings
  split
  · exact criticalsOK_mk_sub (fun r hr => List.mem_of_mem_filter hr) h
  · exact h

theorem criticalsOK_final {d out : Dataset}
    (hfin : prepare_final_output d = some out)
    (hsub : ∀ c ∈ critical_cols, c ∈ d.schema)
    (h : CriticalsOK d) : CriticalsOK out := by
  intro r' hr' cc hcc
  have hout : ∀ c ∈ critical_cols, c ∈ output_columns := by decide
  obtain ⟨r, hr, heq⟩ := cell_of_final hfin (hout cc hcc) (hsub cc hcc) r' hr'
  rw [heq]
  exact h r hr cc hcc

/-- C6: after the Missing-Value Resolver, every record has non-null
`review_text`, `rating` and `bank_name`, and every later stage — date
normalization, text cleaning, deduplication, script filtering, rating
validation, and the final projection/sort — preserves this through to
the final output. -/
theorem c6_critical_fields_non_null (d : Dataset) (hwf : d.WF) :
    CriticalsOK (handle_missing_values d) ∧
    CriticalsOK (normalize_dates (handle_missing_values d)) ∧
    CriticalsOK (clean_text (normalize_dates (handle_missing_values d))) ∧
    CriticalsOK (remove_duplicates (clean_text (normalize_dates
      (handle_missing_values d)))) ∧
    CriticalsOK (filter_non_english_reviews (remove_duplicates (clean_text
      (normalize_dates (handle_missing_values d))))) ∧
    CriticalsOK (validate_ratings (filter_non_english_reviews
      (remove_duplicates (clean_text (normalize_dates
        (handle_missing_values d)))))) ∧
    ((∀ c ∈ critical_cols, c ∈ d.schema) → ∀ out,
      prepare_final_output (validate_ratings (filter_non_english_reviews
        (remove_duplicates (clean_text (normalize_dates
          (handle_missing_values d)))))) = some out → CriticalsOK out) := by
  have hwf3 := WF_handle_missing_values hwf
  have hwf4 := WF_normalize_dates hwf3
  have hwf5 := WF_clean_text hwf4
  have h3 := criticalsOK_handle_missing_values hwf
  have h4 := criticalsOK_normalize_dates hwf3 h3
  have h5 := criticalsOK_clean_text hwf4 h4
  have h6 := criticalsOK_remove_duplicates h5
  have h7 := criticalsOK_filter_non_english h6
  have h8 := criticalsOK_validate_ratings h7
  refine ⟨h3, h4, h5, h6, h7, h8, ?_⟩
  intro hsub out hfin
  apply criticalsOK_final hfin ?_ h8
  intro c hc
  rw [schema_validate_ratings, schema_filter_non_english,
    schema_remove_duplicates]
  exact mem_schema_clean_text (mem_schema_normalize_dates
    (mem_schema_handle_missing_values (hsub c hc)))

/-- C6 witness: the invariant chain at a concrete dataset. -/
theorem c6_critical_fields_non_null_witness :
    dsFull.WF ∧
    (CriticalsOK (handle_missing_values dsFull) ∧
    CriticalsOK (normalize_dates (handle_missing_values dsFull)) ∧
    CriticalsOK (clean_text (normalize_dates (handle_missing_values dsFull))) ∧
    CriticalsOK (remove_duplicates (clean_text (normalize_dates
      (handle_missing_values dsFull)))) ∧
    CriticalsOK (filter_non_english_reviews (remove_duplicates (clean_text
      (normalize_dates (handle_missing_values dsFull))))) ∧
    CriticalsOK (validate_ratings (filter_non_english_reviews
      (remove_duplicates (clean_text (normalize_dates
        (handle_missing_values dsFull)))))) ∧
    ((∀ c ∈ critical_cols, c ∈ dsFull.schema) → ∀ out,
      prepare_final_output (validate_ratings (filter_non_english_reviews
        (remove_duplicates (clean_text (normalize_dates
          (handle_missing_values dsFull)))))) = some out → CriticalsOK out)) :=
  ⟨by decide, c6_critical_fields_non_null dsFull (by decide)⟩

/-! ### C7: the script filter and the no-Ethiopic invariant -/

theorem contains_amharic_iff (v : Value) :
    contains_amharic v = true ↔
      ∃ ch ∈ (valueStr v).data, 0x1200 ≤ ch.toNat ∧ ch.toNat ≤ 0x137F := by
  unfold contains_amharic
  rw [List.any_eq_true]
  constructor
  · rintro ⟨ch, hch, hp⟩
    refine ⟨ch, hch, ?_⟩
    simpa [isEthiopic] using hp
  · rintro ⟨ch, hch, hp⟩
    refine ⟨ch, hch, ?_⟩
    simpa [isEthiopic] using hp

theorem noEthiopic_mk_sub {s : List String} {rows rows' : List Row}
    (hsub : ∀ r ∈ rows', r ∈ rows) (h : NoEthiopic ⟨s, rows⟩) :
    NoEthiopic ⟨s, rows'⟩ :=
  fun r hr => h r (hsub r hr)

theorem noEthiopic_filter_non_english (d : Dataset) :
    NoEthiopic (filter_non_english_reviews d) := by
  intro r hr ch hch hrange
  have hb := List.of_mem_filter hr
  rw [Bool.not_eq_eq_eq_not, Bool.not_true] at hb
  have : contains_amharic (getCell d.schema r "review_text") = true :=
    (contains_amharic_iff _).mpr ⟨ch, hch, hrange⟩
  rw [this] at hb
  exact Bool.noConfusion hb

theorem noEthiopic_validate_ratings {d : Dataset}
    (h : NoEthiopic d) : NoEthiopic (validate_ratings d) := by
  unfold validate_ratings
  split
  · exact noEthiopic_mk_sub (fun r hr => List.mem_of_mem_filter hr) h
  · exact h

theorem nan_no_ethiopic :
    ∀ ch ∈ (valueStr Value.vnull).data,
      ¬(0x1200 ≤ ch.toNat ∧ ch.toNat ≤ 0x137F) := by
  decide

theorem noEthiopic_final {d out : Dataset}
    (hfin : prepare_final_output d = some out)
    (h : NoEthiopic d) : NoEthiopic out := by
  by_cases hrt : "review_text" ∈ d.schema
  · intro r' hr'
    obtain ⟨r, hr, heq⟩ := cell_of_final hfin (by decide) hrt r' hr'
    rw [heq]
    exact h r hr
  · intro r' hr'
    have hnone : getCell out.schema r' "review_text" = .vnull := by
      rw [prepare_final_output_eq hfin]
      have hmem : "review_text" ∉ finalCols d := by
        unfold finalCols
        rw [List.mem_filter]
        rintro ⟨_, h2⟩
        exact hrt (by simpa using h2)
      unfold getCell
      rw [colIdx_eq_none.mpr hmem]
    rw [hnone]
    exact nan_no_ethiopic

/-- C7: the script filter removes a record exactly when its (cleaned)
`review_text` contains a character with code point in U+1200–U+137F;
afterwards no surviving record's text contains such a character, and the
rating validator and finalizer preserve this through to the final
output. -/
theorem c7_script_filter (d : Dataset) :
    (∀ r ∈ d.rows,
      (r ∈ (filter_non_english_reviews d).rows ↔
        ∀ ch ∈ (valueStr (getCell d.schema r "review_text")).data,
          ¬(0x1200 ≤ ch.toNat ∧ ch.toNat ≤ 0x137F))) ∧
    NoEthiopic (filter_non_english_reviews d) ∧
    NoEthiopic (validate_ratings (filter_non_english_reviews d)) ∧
    (∀ out, prepare_final_output (validate_ratings
        (filter_non_english_reviews d)) = some out → NoEthiopic out) := by
  refine ⟨?_, noEthiopic_filter_non_english d,
    noEthiopic_validate_ratings (noEthiopic_filter_non_english d),
    fun out hfin => noEthiopic_final hfin
      (noEthiopic_validate_ratings (noEthiopic_filter_non_english d))⟩
  intro r hr
  unfold filter_non_english_reviews
  rw [List.mem_filter]
  constructor
  · rintro ⟨_, hb⟩ ch hch hrange
    rw [Bool.not_eq_eq_eq_not, Bool.not_true] at hb
    have : contains_amharic (getCell d.schema r "review_text") = true :=
      (contains_amharic_iff _).mpr ⟨ch, hch, hrange⟩
    rw [this] at hb
    exact Bool.noConfusion hb
  · intro hnone
    refine ⟨hr, ?_⟩
    rw [Bool.not_eq_eq_eq_not, Bool.not_true]
    by_contra hb
    have : contains_amharic (getCell d.schema r "review_text") = true := by
      cases hc : contains_amharic (getCell d.schema r "review_text") with
      | false => exact absurd hc hb
      | true => rfl
    obtain ⟨ch, hch, hrange⟩ := (contains_amharic_iff _).mp this
    exact hnone ch hch hrange

/-- C7 witness: the full statement instantiated at a dataset containing
one Amharic review. -/
theorem c7_script_filter_witness :
    (∀ r ∈ dsAmh.rows,
      (r ∈ (filter_non_english_reviews dsAmh).rows ↔
        ∀ ch ∈ (valueStr (getCell dsAmh.schema r "review_text")).data,
          ¬(0x1200 ≤ ch.toNat ∧ ch.toNat ≤ 0x137F))) ∧
    NoEthiopic (filter_non_english_reviews dsAmh) ∧
    NoEthiopic (validate_ratings (filter_non_english_reviews dsAmh)) ∧
    (∀ out, prepare_final_output (validate_ratings
        (filter_non_english_reviews dsAmh)) = some out → NoEthiopic out) :=
  c7_script_filter dsAmh

/-! ### C8: the rating validator and the rating-bound invariant -/

theorem ratingValid_iff {v : Value} (hv : ∃ n : Int, v = .vint n) :
    ratingValid v = true ↔
      ∃ n : Int, v = .vint n ∧ 1 ≤ n ∧ n ≤ 5 := by
  obtain ⟨n, rfl⟩ := hv
  unfold ratingValid
  constructor
  · intro hb
    rw [Bool.and_eq_true] at hb
    exact ⟨n, rfl, of_decide_eq_true hb.1, of_decide_eq_true hb.2⟩
  · rintro ⟨n', heq, h1, h2⟩
    cases heq
    rw [Bool.and_eq_true]
    exact ⟨decide_eq_true h1, decide_eq_true h2⟩

theorem ratingValid_of_not_invalid {v : Value} (hv : ∃ n : Int, v = .vint n)
    (h : ratingInvalid v = false) : ratingValid v = true := by
  obtain ⟨n, rfl⟩ := hv
  unfold ratingInvalid at h
  unfold ratingValid
  rw [Bool.or_eq_false_iff] at h
  have h1 := of_decide_eq_false h.1
  have h2 := of_decide_eq_false h.2
  rw [Bool.and_eq_true]
  exact ⟨decide_eq_true (by omega), decide_eq_true (by omega)⟩

theorem validate_ratings_rows_eq_filter {d : Dataset}
    (hint : ∀ r ∈ d.rows, ∃ n : Int, getCell d.schema r "rating" = .vint n) :
    (validate_ratings d).rows =
      d.rows.filter (fun r => ratingValid (getCell d.schema r "rating")) := by
  unfold validate_ratings
  split
  · rfl
  · rename_i hany
    have hall : ∀ r ∈ d.rows,
        ratingValid (getCell d.schema r "rating") = true := by
      intro r hr
      apply ratingValid_of_not_invalid (hint r hr)
      by_contra hb
      exact hany (List.any_eq_true.mpr ⟨r, hr, by
        cases hc : ratingInvalid (getCell d.schema r "rating") with
        | false => exact absurd hc hb
        | true => rfl⟩)
    exact (List.filter_eq_self.mpr hall).symm

theorem ratingOK_final {d out : Dataset}
    (hfin : prepare_final_output d = some out)
    (hs : "rating" ∈ d.schema) (h : RatingOK d) : RatingOK out := by
  intro r' hr'
  obtain ⟨r, hr, heq⟩ := cell_of_final hfin (by decide) hs r' hr'
  rw [heq]
  exact h r hr

/-- C8: `validate_ratings` removes exactly the records whose integer
rating lies outside [1, 5] (when every rating is an integer); every
retained record satisfies `1 ≤ rating ≤ 5`, and the later finalizer
preserves this bound. -/
theorem c8_rating_validator (d : Dataset)
    (hint : ∀ r ∈ d.rows, ∃ n : Int, getCell d.schema r "rating" = .vint n) :
    (validate_ratings d).schema = d.schema ∧
    (validate_ratings d).rows =
      d.rows.filter (fun r => ratingValid (getCell d.schema r "rating")) ∧
    (∀ r ∈ d.rows, (r ∈ (validate_ratings d).rows ↔
      ∃ n : Int, getCell d.schema r "rating" = .vint n ∧ 1 ≤ n ∧ n ≤ 5)) ∧
    RatingOK (validate_ratings d) ∧
    (∀ out, prepare_final_output (validate_ratings d) = some out →
      "rating" ∈ d.schema → RatingOK out) := by
  have hrows := validate_ratings_rows_eq_filter hint
  have hmem : ∀ r ∈ d.rows, (r ∈ (validate_ratings d).rows ↔
      ∃ n : Int, getCell d.schema r "rating" = .vint n ∧ 1 ≤ n ∧ n ≤ 5) := by
    intro r hr
    rw [hrows, List.mem_filter]
    constructor
    · rintro ⟨_, hb⟩
      exact (ratingValid_iff (hint r hr)).mp hb
    · intro hb
      exact ⟨hr, (ratingValid_iff (hint r hr)).mpr hb⟩
  have hok : RatingOK (validate_ratings d) := by
    intro r hr
    rw [hrows] at hr
    have hmem' := List.mem_of_mem_filter hr
    have hb := List.of_mem_filter hr
    have := (ratingValid_iff (hint r hmem')).mp hb
    rw [schema_validate_ratings]
    exact this
  refine ⟨schema_validate_ratings d, hrows, hmem, hok, ?_⟩
  intro out hfin hs
  exact ratingOK_final hfin (schema_validate_ratings d ▸ hs) hok

/-- C8 witness: the statement instantiated at a concrete dataset whose
ratings are the integers 5 and 1. -/
theorem c8_rating_validator_witness :
    (∀ r ∈ dsFull.rows, ∃ n : Int,
        getCell dsFull.schema r "rating" = .vint n) ∧
    ((validate_ratings dsFull).schema = dsFull.schema ∧
    (validate_ratings dsFull).rows =
      dsFull.rows.filter
        (fun r => ratingValid (getCell dsFull.schema r "rating")) ∧
    (∀ r ∈ dsFull.rows, (r ∈ (validate_ratings dsFull).rows ↔
      ∃ n : Int,
        getCell dsFull.schema r "rating" = .vint n ∧ 1 ≤ n ∧ n ≤ 5)) ∧
    RatingOK (validate_ratings dsFull) ∧
    (∀ out, prepare_final_output (validate_ratings dsFull) = some out →
      "rating" ∈ dsFull.schema → RatingOK out)) := by
  have hint : ∀ r ∈ dsFull.rows, ∃ n : Int,
      getCell dsFull.schema r "rating" = .vint n := by
    intro r hr
    have : r = [Value.vstr "Good  app", Value.vint 5, Value.vstr "CBE",
          Value.vstr "2024-01-02", Value.vstr "CBE"] ∨
        r = [Value.vstr "bad", Value.vint 1, Value.vstr "BOA",
          Value.vstr "2024-03-04", Value.vstr "BOA"] := by
      simpa [dsFull] using hr
    rcases this with rfl | rfl
    · exact ⟨5, rfl⟩
    · exact ⟨1, rfl⟩
  exact ⟨hint, c8_rating_validator dsFull hint⟩

/-! ### C4: text_length consistency -/

/-- Joint provenance through the finalizer: one input row explains all
projected cells of an output row at once. -/
theorem cells_of_final {d out : Dataset}
    (hfin : prepare_final_output d = some out) :
    ∀ r' ∈ out.rows, ∃ r ∈ d.rows, ∀ c ∈ output_columns, c ∈ d.schema →
      getCell out.schema r' c = getCell d.schema r c := by
  rw [prepare_final_output_eq hfin]
  intro r' hr'
  have hr'' : r' ∈ projectRows d := List.mem_mergeSort.mp hr'
  obtain ⟨r, hr, rfl⟩ := List.mem_map.mp hr''
  refine ⟨r, hr, fun c hc hcs => ?_⟩
  apply getCell_map_cols
  unfold finalCols
  rw [List.mem_filter]
  exact ⟨hc, by simpa using hcs⟩

theorem textLenOK_mk_sub {s : List String} {rows rows' : List Row}
    (hsub : ∀ r ∈ rows', r ∈ rows) (h : TextLenOK ⟨s, rows⟩) :
    TextLenOK ⟨s, rows'⟩ :=
  fun r hr => h r (hsub r hr)

/-- Writing `text_length` from the lengths of the current (string)
`review_text` cells establishes the consistency invariant. -/
theorem textLenOK_setCol_lengths {e : Dataset}
    (hwf : e.WF) (hmem : "review_text" ∈ e.schema)
    (hstr : ∀ r ∈ e.rows, ∃ s : String,
      getCell e.schema r "review_text" = .vstr s) :
    TextLenOK (setCol e "text_length"
      (e.rows.map (fun r =>
        match strLen (getCell e.schema r "review_text") with
        | some n => Value.vint n
        | none => Value.vnull))) := by
  intro r' hr'
  obtain ⟨r, hr, htl, hrt⟩ := getCell_setCol_map_pair
    (fun r => match strLen (getCell e.schema r "review_text") with
      | some n => Value.vint n
      | none => Value.vnull)
    (by decide) hmem hwf.2 r' hr'
  obtain ⟨s, hs⟩ := hstr r hr
  refine ⟨s, ?_, ?_⟩
  · rw [hrt, hs]
  · rw [htl, hs]
    rfl

theorem textLenOK_clean_text {d : Dataset} (hwf : d.WF) :
    TextLenOK (clean_text d) := by
  have hwf1 : (mapCol d "review_text" clean_review_text).WF :=
    WF_setCol hwf _ _
  have hstr1 : ∀ r ∈ (mapCol d "review_text" clean_review_text).rows,
      ∃ s : String, getCell (mapCol d "review_text" clean_review_text).schema
        r "review_text" = .vstr s := by
    unfold mapCol
    intro r' hr'
    obtain ⟨r, hr, heq⟩ := getCell_setCol_map_self
      (fun r => clean_review_text (getCell d.schema r "review_text"))
      hwf.2 r' hr'
    rw [heq]
    exact clean_review_text_vstr _
  have hmem1 : "review_text" ∈ (mapCol d "review_text" clean_review_text).schema := by
    unfold mapCol
    exact mem_schema_setCol_self _ _ _
  unfold clean_text
  apply textLenOK_setCol_lengths (WF_mk_filter hwf1 _) hmem1
  intro r hr
  exact hstr1 r (List.mem_of_mem_filter hr)

theorem textLenOK_final {d out : Dataset}
    (hfin : prepare_final_output d = some out)
    (hrt : "review_text" ∈ d.schema) (htl : "text_length" ∈ d.schema)
    (h : TextLenOK d) : TextLenOK out := by
  intro r' hr'
  obtain ⟨r, hr, hcells⟩ := cells_of_final hfin r' hr'
  obtain ⟨s, hs1, hs2⟩ := h r hr
  refine ⟨s, ?_, ?_⟩
  · rw [hcells "review_text" (by decide) hrt, hs1]
  · rw [hcells "text_length" (by decide) htl, hs2]

/-- C4: after the Text Cleaner, every surviving record's `text_length`
equals the character count of its (string) `review_text`, and the
Deduplicator, Script Filter, Rating Validator and Finalizer all preserve
this equality through to the final output. -/
theorem c4_text_length_consistency (d : Dataset) (hwf : d.WF) :
    TextLenOK (clean_text d) ∧
    TextLenOK (remove_duplicates (clean_text d)) ∧
    TextLenOK (filter_non_english_reviews (remove_duplicates (clean_text d))) ∧
    TextLenOK (validate_ratings (filter_non_english_reviews
      (remove_duplicates (clean_text d)))) ∧
    (∀ out, prepare_final_output (validate_ratings (filter_non_english_reviews
      (remove_duplicates (clean_text d)))) = some out → TextLenOK out) := by
  have h5 := textLenOK_clean_text hwf
  have h6 : TextLenOK (remove_duplicates (clean_text d)) :=
    textLenOK_mk_sub
      (fun r hr => (dropDupsAux_sublist (clean_text d).rows []).subset hr) h5
  have h7 : TextLenOK (filter_non_english_reviews
      (remove_duplicates (clean_text d))) :=
    textLenOK_mk_sub (fun r hr => List.mem_of_mem_filter hr) h6
  have h8 : TextLenOK (validate_ratings (filter_non_english_reviews
      (remove_duplicates (clean_text d)))) := by
    unfold validate_ratings
    split
    · exact textLenOK_mk_sub (fun r hr => List.mem_of_mem_filter hr) h7
    · exact h7
  refine ⟨h5, h6, h7, h8, ?_⟩
  intro out hfin
  apply textLenOK_final hfin ?_ ?_ h8
  · rw [schema_validate_ratings, schema_filter_non_english,
      schema_remove_duplicates]
    exact review_text_mem_clean_text d
  · rw [schema_validate_ratings, schema_filter_non_english,
      schema_remove_duplicates]
    exact text_length_mem_clean_text d

/-- C4 witness: the invariant chain at a concrete dataset. -/
theorem c4_text_length_consistency_witness :
    dsFull.WF ∧
    (TextLenOK (clean_text dsFull) ∧
    TextLenOK (remove_duplicates (clean_text dsFull)) ∧
    TextLenOK (filter_non_english_reviews (remove_duplicates
      (clean_text dsFull))) ∧
    TextLenOK (validate_ratings (filter_non_english_reviews
      (remove_duplicates (clean_text dsFull)))) ∧
    (∀ out, prepare_final_output (validate_ratings (filter_non_english_reviews
      (remove_duplicates (clean_text dsFull)))) = some out →
        TextLenOK out)) :=
  ⟨by decide, c4_text_length_consistency dsFull (by decide)⟩

/-! ### C10: no stage ever adds a record -/

theorem length_fillna_step_le (e : Dataset) (cond : Prop) [Decidable cond]
    (c : String) (v : Value) :
    (if cond then fillna e c v else e).rows.length ≤ e.rows.length := by
  split
  · exact length_setCol_le _ _ _
  · exact Nat.le_refl _

theorem length_handle_missing_values_le (d : Dataset) :
    (handle_missing_values d).rows.length ≤ d.rows.length := by
  unfold handle_missing_values
  refine le_trans (length_fillna_step_le _ _ _ _)
    (le_trans (length_fillna_step_le _ _ _ _)
      (le_trans (length_fillna_step_le _ _ _ _) ?_))
  exact List.length_filter_le _ _

theorem length_normalize_dates_le (d : Dataset) :
    (normalize_dates d).rows.length ≤ d.rows.length := by
  unfold normalize_dates
  cases parseDateCol d with
  | none => exact Nat.le_refl _
  | some ymds =>
    exact le_trans (length_setCol_le _ _ _)
      (le_trans (length_setCol_le _ _ _) (length_setCol_le _ _ _))

theorem length_clean_text_le (d : Dataset) :
    (clean_text d).rows.length ≤ d.rows.length := by
  have h1 : (mapCol d "review_text" clean_review_text).rows.length ≤
      d.rows.length := by
    unfold mapCol
    exact length_setCol_le _ _ _
  have h2 : ((mapCol d "review_text" clean_review_text).rows.filter
      (fun r => 0 < (strLen (getCell
        (mapCol d "review_text" clean_review_text).schema
        r "review_text")).getD 0)).length ≤
      (mapCol d "review_text" clean_review_text).rows.length :=
    List.length_filter_le _ _
  unfold clean_text
  exact le_trans (length_setCol_le _ _ _) (le_trans h2 h1)

theorem length_remove_duplicates_le (d : Dataset) :
    (remove_duplicates d).rows.length ≤ d.rows.length :=
  (dropDupsAux_sublist d.rows []).length_le

theorem length_filter_non_english_le (d : Dataset) :
    (filter_non_english_reviews d).rows.length ≤ d.rows.length :=
  List.length_filter_le _ _

theorem length_validate_ratings_le (d : Dataset) :
    (validate_ratings d).rows.length ≤ d.rows.length := by
  unfold validate_ratings
  split
  · exact List.length_filter_le _ _
  · exact Nat.le_refl _

theorem length_final_eq {d out : Dataset}
    (hfin : prepare_final_output d = some out) :
    out.rows.length = d.rows.length := by
  rw [prepare_final_output_eq hfin]
  show ((projectRows d).mergeSort (finalLe (finalCols d))).length = _
  rw [List.length_mergeSort]
  exact List.length_map _ _

/-- C10: from the Missing-Value Resolver through the Finalizer, every
stage's output has at most as many records as its input, so the final
record count is at most the original count (and the retention rate is at
most 100%). -/
theorem c10_no_stage_adds_records (d : Dataset) :
    (handle_missing_values d).rows.length ≤ d.rows.length ∧
    (normalize_dates (handle_missing_values d)).rows.length ≤
      (handle_missing_values d).rows.length ∧
    (clean_text (normalize_dates (handle_missing_values d))).rows.length ≤
      (normalize_dates (handle_missing_values d)).rows.length ∧
    (remove_duplicates (clean_text (normalize_dates
      (handle_missing_values d)))).rows.length ≤
      (clean_text (normalize_dates (handle_missing_values d))).rows.length ∧
    (filter_non_english_reviews (remove_duplicates (clean_text
      (normalize_dates (handle_missing_values d))))).rows.length ≤
      (remove_duplicates (clean_text (normalize_dates
        (handle_missing_values d)))).rows.length ∧
    (validate_ratings (filter_non_english_reviews (remove_duplicates
      (clean_text (normalize_dates (handle_missing_values d)))))).rows.length ≤
      (filter_non_english_reviews (remove_duplicates (clean_text
        (normalize_dates (handle_missing_values d))))).rows.length ∧
    (∀ out, prepare_final_output (validate_ratings (filter_non_english_reviews
        (remove_duplicates (clean_text (normalize_dates
          (handle_missing_values d)))))) = some out →
      out.rows.length ≤ d.rows.length) := by
  refine ⟨length_handle_missing_values_le d, length_normalize_dates_le _,
    length_clean_text_le _, length_remove_duplicates_le _,
    length_filter_non_english_le _, length_validate_ratings_le _, ?_⟩
  intro out hfin
  rw [length_final_eq hfin]
  calc (validate_ratings (filter_non_english_reviews (remove_duplicates
        (clean_text (normalize_dates (handle_missing_values d)))))).rows.length
      ≤ (filter_non_english_reviews (remove_duplicates (clean_text
          (normalize_dates (handle_missing_values d))))).rows.length :=
        length_validate_ratings_le _
    _ ≤ (remove_duplicates (clean_text (normalize_dates
          (handle_missing_values d)))).rows.length :=
        length_filter_non_english_le _
    _ ≤ (clean_text (normalize_dates (handle_missing_values d))).rows.length :=
        length_remove_duplicates_le _
    _ ≤ (normalize_dates (handle_missing_values d)).rows.length :=
        length_clean_text_le _
    _ ≤ (handle_missing_values d).rows.length := length_normalize_dates_le _
    _ ≤ d.rows.length := length_handle_missing_values_le d

/-- C10 witness: the monotone record counts at a concrete dataset. -/
theorem c10_no_stage_adds_records_witness :
    (handle_missing_values dsFull).rows.length ≤ dsFull.rows.length ∧
    (normalize_dates (handle_missing_values dsFull)).rows.length ≤
      (handle_missing_values dsFull).rows.length ∧
    (clean_text (normalize_dates (handle_missing_values dsFull))).rows.length ≤
      (normalize_dates (handle_missing_values dsFull)).rows.length ∧
    (remove_duplicates (clean_text (normalize_dates
      (handle_missing_values dsFull)))).rows.length ≤
      (clean_text (normalize_dates (handle_missing_values dsFull))).rows.length ∧
    (filter_non_english_reviews (remove_duplicates (clean_text
      (normalize_dates (handle_missing_values dsFull))))).rows.length ≤
      (remove_duplicates (clean_text (normalize_dates
        (handle_missing_values dsFull)))).rows.length ∧
    (validate_ratings (filter_non_english_reviews (remove_duplicates
      (clean_text (normalize_dates
        (handle_missing_values dsFull)))))).rows.length ≤
      (filter_non_english_reviews (remove_duplicates (clean_text
        (normalize_dates (handle_missing_values dsFull))))).rows.length ∧
    (∀ out, prepare_final_output (validate_ratings (filter_non_english_reviews
        (remove_duplicates (clean_text (normalize_dates
          (handle_missing_values dsFull)))))) = some out →
      out.rows.length ≤ dsFull.rows.length) :=
  c10_no_stage_adds_records dsFull

/-! ### C3: final sort order and stability -/

theorem char_toNat_inj {a b : Char} (h : a.toNat = b.toNat) : a = b := by
  apply Char.ext
  unfold Char.toNat at h
  exact UInt32.toNat.inj h

theorem charsLe_refl (l : List Char) : charsLe l l = true := by
  induction l with
  | nil => rfl
  | cons x xs ih =>
    unfold charsLe
    rw [if_neg (Nat.lt_irrefl _), if_neg (Nat.lt_irrefl _)]
    exact ih

theorem charsLe_total (a b : List Char) :
    charsLe a b = true ∨ charsLe b a = true := by
  induction a generalizing b with
  | nil => exact Or.inl rfl
  | cons x xs ih =>
    cases b with
    | nil => exact Or.inr rfl
    | cons y ys =>
      by_cases h1 : x.toNat < y.toNat
      · left
        unfold charsLe
        rw [if_pos h1]
      · by_cases h2 : y.toNat < x.toNat
        · right
          unfold charsLe
          rw [if_pos h2]
        · rcases ih ys with h | h
          · left
            unfold charsLe
            rw [if_neg h1, if_neg h2]
            exact h
          · right
            unfold charsLe
            rw [if_neg h2, if_neg h1]
            exact h

theorem charsLe_trans {a b c : List Char} (h1 : charsLe a b = true)
    (h2 : charsLe b c = true) : charsLe a c = true := by
  induction a generalizing b c with
  | nil => rfl
  | cons x xs ih =>
    cases b with
    | nil => exact absurd h1 (by simp [charsLe])
    | cons y ys =>
      cases c with
      | nil => exact absurd h2 (by simp [charsLe])
      | cons z zs =>
        unfold charsLe at h1 h2 ⊢
        by_cases hxy : x.toNat < y.toNat <;>
          by_cases hyz : y.toNat < z.toNat
        · rw [if_pos (by omega)]
        · rw [if_neg hyz] at h2
          by_cases hzy : z.toNat < y.toNat
          · rw [if_pos hzy] at h2
            exact Bool.noConfusion h2
          · rw [if_pos (by omega)]
        · rw [if_neg hxy] at h1
          by_cases hyx : y.toNat < x.toNat
          · rw [if_pos hyx] at h1
            exact Bool.noConfusion h1
          · rw [if_pos (by omega)]
        · rw [if_neg hxy] at h1
          rw [if_neg hyz] at h2
          by_cases hyx : y.toNat < x.toNat
          · rw [if_pos hyx] at h1
            exact Bool.noConfusion h1
          · by_cases hzy : z.toNat < y.toNat
            · rw [if_pos hzy] at h2
              exact Bool.noConfusion h2
            · rw [if_neg hyx] at h1
              rw [if_neg hzy] at h2
              rw [if_neg (by omega), if_neg (by omega)]
              exact ih h1 h2

theorem charsLe_antisymm {a b : List Char} (h1 : charsLe a b = true)
    (h2 : charsLe b a = true) : a = b := by
  induction a generalizing b with
  | nil =>
    cases b with
    | nil => rfl
    | cons y ys => exact absurd h2 (by simp [charsLe])
  | cons x xs ih =>
    cases b with
    | nil => exact absurd h1 (by simp [charsLe])
    | cons y ys =>
      unfold charsLe at h1 h2
      by_cases hxy : x.toNat < y.toNat
      · rw [if_neg (by omega), if_pos hxy] at h2
        exact Bool.noConfusion h2
      · by_cases hyx : y.toNat < x.toNat
        · rw [if_neg (by omega), if_pos hyx] at h1
          exact Bool.noConfusion h1
        · rw [if_neg hxy, if_neg hyx] at h1
          rw [if_neg hyx, if_neg hxy] at h2
          have hxyeq : x = y := char_toNat_inj (by omega)
          rw [hxyeq, ih h1 h2]

theorem valueLe_refl (a : Value) : valueLe a a = true := by
  cases a with
  | vnull => rfl
  | vint n => exact decide_eq_true (Int.le_refl n)
  | vstr s => exact charsLe_refl s.data
  | vdate y m dd =>
    simp only [valueLe]
    rw [if_neg (Nat.lt_irrefl _), if_neg (Nat.lt_irrefl _),
      if_neg (Nat.lt_irrefl _), if_neg (Nat.lt_irrefl _)]
    exact decide_eq_true (Nat.le_refl dd)

theorem valueLe_total (a b : Value) :
    valueLe a b = true ∨ valueLe b a = true := by
  cases a <;> cases b <;>
    simp only [valueLe, valueRank, decide_eq_true_eq] <;>
    try omega
  · exact charsLe_total _ _
  · rename_i y1 m1 d1 y2 m2 d2
    split_ifs <;> simp_all <;> omega

theorem valueLe_trans {a b c : Value} (h1 : valueLe a b = true)
    (h2 : valueLe b c = true) : valueLe a c = true := by
  cases a <;> cases b <;> cases c <;>
    simp only [valueLe, valueRank, decide_eq_true_eq] at h1 h2 ⊢ <;>
    try omega
  · exact charsLe_trans h1 h2
  · split_ifs at h1 h2 ⊢ <;> simp_all <;> omega

theorem valueLe_antisymm {a b : Value} (h1 : valueLe a b = true)
    (h2 : valueLe b a = true) : a = b := by
  cases a <;> cases b <;>
    simp only [valueLe, valueRank, decide_eq_true_eq] at h1 h2 <;>
    try omega
  · rfl
  · rename_i m n
    exact congrArg Value.vint (by omega)
  · rename_i s t
    have hd := charsLe_antisymm h1 h2
    cases s
    cases t
    exact congrArg (fun l : List Char => Value.vstr ⟨l⟩) hd
  · rename_i y1 m1 d1 y2 m2 d2
    rw [Value.vdate.injEq]
    split_ifs at h1 h2 <;>
      simp only [decide_eq_true_eq] at h1 h2 <;>
      omega

theorem finalLe_total (s : List String) (a b : Row) :
    (finalLe s a b || finalLe s b a) = true := by
  unfold finalLe
  by_cases heq : getCell s a "bank_code" = getCell s b "bank_code"
  · rw [if_pos heq, if_pos heq.symm]
    rcases valueLe_total (getCell s b "review_date")
        (getCell s a "review_date") with h | h
    · rw [h]
      rfl
    · rw [h]
      simp
  · rw [if_neg heq, if_neg (Ne.symm heq)]
    rcases valueLe_total (getCell s a "bank_code")
        (getCell s b "bank_code") with h | h
    · rw [h]
      rfl
    · rw [h]
      simp

theorem finalLe_trans (s : List String) (a b c : Row)
    (h1 : finalLe s a b = true) (h2 : finalLe s b c = true) :
    finalLe s a c = true := by
  unfold finalLe at h1 h2 ⊢
  by_cases hab : getCell s a "bank_code" = getCell s b "bank_code" <;>
    by_cases hbc : getCell s b "bank_code" = getCell s c "bank_code"
  · rw [if_pos hab] at h1
    rw [if_pos hbc] at h2
    rw [if_pos (hab.trans hbc)]
    exact valueLe_trans h2 h1
  · rw [if_neg hbc] at h2
    have hac : getCell s a "bank_code" ≠ getCell s c "bank_code" :=
      fun he => hbc (hab ▸ he)
    rw [if_neg hac, hab]
    exact h2
  · rw [if_neg hab] at h1
    have hac : getCell s a "bank_code" ≠ getCell s c "bank_code" :=
      fun he => hab (he.trans hbc.symm)
    rw [if_neg hac, ← hbc]
    exact h1
  · rw [if_neg hab] at h1
    rw [if_neg hbc] at h2
    by_cases hac : getCell s a "bank_code" = getCell s c "bank_code"
    · exact absurd (valueLe_antisymm h1 (hac ▸ h2)) hab
    · rw [if_neg hac]
      exact valueLe_trans h1 h2

/-- C3: the finalizer's output is sorted with `bank_code` non-decreasing
and, within equal `bank_code`, `review_date` non-increasing; records that
tie on both keys keep their original relative order (stability: any
tied pair that is a sublist of the projected input is still a sublist of
the output). -/
theorem c3_final_sort_order (d out : Dataset)
    (hfin : prepare_final_output d = some out) :
    out.rows.Pairwise (fun r1 r2 =>
      valueLe (getCell out.schema r1 "bank_code")
        (getCell out.schema r2 "bank_code") = true ∧
      (getCell out.schema r1 "bank_code" =
          getCell out.schema r2 "bank_code" →
        valueLe (getCell out.schema r2 "review_date")
          (getCell out.schema r1 "review_date") = true)) ∧
    (∀ a b, List.Sublist [a, b] (projectRows d) →
      getCell out.schema a "bank_code" = getCell out.schema b "bank_code" →
      getCell out.schema a "review_date" =
        getCell out.schema b "review_date" →
      List.Sublist [a, b] out.rows) := by
  have hout := prepare_final_output_eq hfin
  subst hout
  constructor
  · have hsorted := List.sorted_mergeSort
      (fun a b c => finalLe_trans (finalCols d) a b c)
      (fun a b => finalLe_total (finalCols d) a b)
      (projectRows d)
    apply hsorted.imp
    intro r1 r2 hle
    unfold finalLe at hle
    by_cases heq : getCell (finalCols d) r1 "bank_code" =
        getCell (finalCols d) r2 "bank_code"
    · rw [if_pos heq] at hle
      exact ⟨heq ▸ valueLe_refl _, fun _ => hle⟩
    · rw [if_neg heq] at hle
      exact ⟨hle, fun he => absurd he heq⟩
  · intro a b hpair hbc hdate
    apply List.pair_sublist_mergeSort
      (fun a b c => finalLe_trans (finalCols d) a b c)
      (fun a b => finalLe_total (finalCols d) a b)
      ?_ hpair
    unfold finalLe
    rw [if_pos hbc, hdate]
    exact valueLe_refl _

/-- C3 witness: the sortedness and stability statement at the concrete
finalizer output of `dsFull`. -/
theorem c3_final_sort_order_witness :
    (⟨finalCols dsFull, (projectRows dsFull).mergeSort
        (finalLe (finalCols dsFull))⟩ : Dataset).rows.Pairwise (fun r1 r2 =>
      valueLe (getCell (⟨finalCols dsFull, (projectRows dsFull).mergeSort
          (finalLe (finalCols dsFull))⟩ : Dataset).schema r1 "bank_code")
        (getCell (⟨finalCols dsFull, (projectRows dsFull).mergeSort
          (finalLe (finalCols dsFull))⟩ : Dataset).schema r2 "bank_code") = true ∧
      (getCell (⟨finalCols dsFull, (projectRows dsFull).mergeSort
          (finalLe (finalCols dsFull))⟩ : Dataset).schema r1 "bank_code" =
          getCell (⟨finalCols dsFull, (projectRows dsFull).mergeSort
            (finalLe (finalCols dsFull))⟩ : Dataset).schema r2 "bank_code" →
        valueLe (getCell (⟨finalCols dsFull, (projectRows dsFull).mergeSort
            (finalLe (finalCols dsFull))⟩ : Dataset).schema r2 "review_date")
          (getCell (⟨finalCols dsFull, (projectRows dsFull).mergeSort
            (finalLe (finalCols dsFull))⟩ : Dataset).schema r1
              "review_date") = true)) ∧
    (∀ a b, List.Sublist [a, b] (projectRows dsFull) →
      getCell (⟨finalCols dsFull, (projectRows dsFull).mergeSort
          (finalLe (finalCols dsFull))⟩ : Dataset).schema a "bank_code" =
        getCell (⟨finalCols dsFull, (projectRows dsFull).mergeSort
          (finalLe (finalCols dsFull))⟩ : Dataset).schema b "bank_code" →
      getCell (⟨finalCols dsFull, (projectRows dsFull).mergeSort
          (finalLe (finalCols dsFull))⟩ : Dataset).schema a "review_date" =
        getCell (⟨finalCols dsFull, (projectRows dsFull).mergeSort
          (finalLe (finalCols dsFull))⟩ : Dataset).schema b "review_date" →
      List.Sublist [a, b] (⟨finalCols dsFull,
        (projectRows dsFull).mergeSort
          (finalLe (finalCols dsFull))⟩ : Dataset).rows) :=
  c3_final_sort_order dsFull _ rfl

end Preprocessing
